import Mathlib

/-!
# cpp-test example programs: a verification development

The repository holds small stand-alone C++ programs used as fixtures of a
differential stress tester: input generators, brute-force references and
optimised candidates.  Each program reads whitespace-separated integers from
its standard input and prints integers to its standard output.

Every program is embedded as a Lean function from the values it reads to the
values it prints.  A program that reads `n` followed by `n` integers is a
function of the list of those integers, with `n` its length.  `int` values are
mathematical integers: the index arithmetic of the search and sort programs
stays between `-1` and `n`.  Where the source computes in an unsigned type, or
stores an out-of-range value into an `int`, the wrap-around is written out.
`while` loops carry a fuel argument and return `none` when it runs out, and an
array read outside the vector also gives `none`.
-/

namespace CppTest

/-! ## Library routines used by the programs -/

/-- `std::sort(first, last)` on a `vector<int>`: the elements in ascending
order.  On integers the ascending arrangement of a multiset is unique, so the
result does not depend on the sorting algorithm of the library. -/
def std_sort (arr : List Int) : List Int :=
  arr.insertionSort (· ≤ ·)

/-! ## stress/search_solution.cpp -/

/-- Body of the `while` loop of `search_solution.cpp` (lines 26-37), run with
`left <= right`.  `Sum.inl mid` is `result = mid; break;`, `Sum.inr (l, r)` is
the pair `(left, right)` the next test of the loop condition sees.  `none` is a
read outside `arr`. -/
def loopBody (arr : List Int) (target left right : Int) : Option (Int ⊕ (Int × Int)) :=
  let mid := left + (right - left).tdiv 2
  if mid < 0 then none
  else
    match arr[mid.toNat]? with
    | none => none
    | some a =>
      if a = target then some (Sum.inl mid)
      else if a < target then some (Sum.inr (mid + 1, right))
      else some (Sum.inr (left, mid - 1))

/-- The loop `while (left <= right) { ... }` of `search_solution.cpp` with the
value of `result` after it; `result` is `-1` unless the body breaks.  The first
argument bounds the number of evaluations of the loop condition. -/
def whileLoop (arr : List Int) (target : Int) : Nat → Int → Int → Option Int
  | 0, _, _ => none
  | fuel + 1, left, right =>
    if left ≤ right then
      match loopBody arr target left right with
      | none => none
      | some (Sum.inl result) => some result
      | some (Sum.inr (l, r)) => whileLoop arr target fuel l r
    else some (-1)

/-- The program `search_solution.cpp` on the input `n target arr[0..n-1]` with
`n = arr.length`: sort, then binary search; the value is the printed `result`. -/
def search_solution (arr : List Int) (target : Int) : Option Int :=
  let n : Int := arr.length
  let sorted := std_sort arr
  whileLoop sorted target (arr.length + 1) 0 (n - 1)

/-! ## stress/search_brute.cpp -/

/-- The loop `for (i = ...; i < n; i++) if (arr[i] == target) { result = i; break; }`
of `search_brute.cpp` started at index `i` with `rem = n - i` indices left, and
the value of `result` after it. -/
def linearScan (arr : List Int) (target : Int) : Nat → Nat → Option Int
  | _, 0 => some (-1)
  | i, rem + 1 =>
    match arr[i]? with
    | none => none
    | some a => if a = target then some (i : Int) else linearScan arr target (i + 1) rem

/-- The program `search_brute.cpp` on the input `n target arr[0..n-1]` with
`n = arr.length`: sort, then linear search; the value is the printed `result`. -/
def search_brute (arr : List Int) (target : Int) : Option Int :=
  linearScan (std_sort arr) target 0 arr.length

/-- The array `1, 2, ..., n` that `search_generator.cpp` builds before
shuffling (`arr[i] = i + 1`). -/
def iota (n : Nat) : List Int :=
  List.map (fun (i : Nat) => (i : Int) + 1) (List.range n)

/-! ## stress/sort_bru.cpp -/

/-- The statement `if (nums[j] > nums[j+1]) swap(nums[j], nums[j+1]);` of
`sort_bru.cpp`; `none` is a read outside `nums`. -/
def compareSwap (nums : List Int) (j : Nat) : Option (List Int) :=
  match nums[j]?, nums[j + 1]? with
  | some a, some b => if a > b then some ((nums.set j b).set (j + 1) a) else some nums
  | _, _ => none

/-- The inner loop `for (j = ...; j < n - 1; j++)` of `sort_bru.cpp`, started at
index `j` with `rem` iterations left. -/
def innerLoop : Nat → Nat → List Int → Option (List Int)
  | _, 0, nums => some nums
  | j, rem + 1, nums => (compareSwap nums j).bind (innerLoop (j + 1) rem)

/-- The outer loop `for (i = ...; i < n; i++)` of `sort_bru.cpp` with `rem`
passes left; every pass runs `j` over `0 .. n - 2`, which is `n - 1` iterations
and none when `n = 0`. -/
def outerLoop (n : Nat) : Nat → List Int → Option (List Int)
  | 0, nums => some nums
  | rem + 1, nums => (innerLoop 0 (n - 1) nums).bind (outerLoop n rem)

/-- The program `sort_bru.cpp` on the input `n nums[0..n-1]` with
`n = nums.length`; the value is the list of printed numbers. -/
def sort_bru (nums : List Int) : Option (List Int) :=
  outerLoop nums.length nums.length nums

/-- One pass of adjacent compare-and-swap over `a :: t`, written by recursion
on the list: the larger of the two elements compared is carried forward. -/
def bubbleCarry : Int → List Int → List Int
  | a, [] => [a]
  | a, b :: t => if a > b then b :: bubbleCarry a t else a :: bubbleCarry b t

/-- One pass of adjacent compare-and-swap over a list. -/
def bubblePass : List Int → List Int
  | [] => []
  | a :: t => bubbleCarry a t

/-- After `k` passes the last `k` elements are in their final place: they are
ascending and lie above everything before them. -/
def SortedTail (k : Nat) (l : List Int) : Prop :=
  ∃ xs ys, l = xs ++ ys ∧ ys.length = k ∧ ys.Sorted (· ≤ ·) ∧ ∀ x ∈ xs, ∀ y ∈ ys, x ≤ y

/-! ## std::mt19937 -/

/-- The seeding recurrence of `mt19937 rng(value)`:
`x[i] = (1812433253 * (x[i-1] ^ (x[i-1] >> 30)) + i) mod 2^32` for `i = 1 .. 623`. -/
def mtSeedLoop : Nat → Nat → Nat → List Nat
  | _, _, 0 => []
  | i, prev, rem + 1 =>
    let x := (1812433253 * (prev ^^^ (prev >>> 30)) + i) % 4294967296
    x :: mtSeedLoop (i + 1) x rem

/-- The 624 state words after `mt19937 rng(value)`; `x[0] = value mod 2^32`. -/
def mtSeed (value : Nat) : List Nat :=
  let x0 := value % 4294967296
  x0 :: mtSeedLoop 1 x0 623

/-- The new state word from the upper bit of `u`, the lower 31 bits of `v` and
the word `m` 397 places ahead. -/
def mtMix (u v m : Nat) : Nat :=
  let y := (u &&& 0x80000000) ||| (v &&& 0x7fffffff)
  m ^^^ (y >>> 1) ^^^ (if y % 2 = 1 then 0x9908b0df else 0)

/-- The state regeneration of the Mersenne Twister, word by word in place. -/
def mtTwistLoop : Nat → Nat → List Nat → List Nat
  | _, 0, mt => mt
  | i, rem + 1, mt =>
    mtTwistLoop (i + 1) rem
      (mt.set i (mtMix (mt.getD i 0) (mt.getD ((i + 1) % 624) 0) (mt.getD ((i + 397) % 624) 0)))

/-- One regeneration of all 624 state words. -/
def mtTwist (mt : List Nat) : List Nat :=
  mtTwistLoop 0 624 mt

/-- The output tempering of `mt19937`. -/
def mtTemper (y0 : Nat) : Nat :=
  let y1 := y0 ^^^ (y0 >>> 11)
  let y2 := y1 ^^^ ((y1 <<< 7) &&& 0x9d2c5680)
  let y3 := y2 ^^^ ((y2 <<< 15) &&& 0xefc60000)
  y3 ^^^ (y3 >>> 18)

/-- The state that serves the draws `624 * b .. 624 * b + 623`. -/
def mtBlock (value : Nat) : Nat → List Nat
  | 0 => mtTwist (mtSeed value)
  | b + 1 => mtTwist (mtBlock value b)

/-- The engine `std::mt19937` as the C++ standard defines it: `mt19937 value k`
is the result of the `k`-th call `rng()`, counted from 0, after
`mt19937 rng(value)`. -/
def mt19937 (value k : Nat) : Nat :=
  mtTemper ((mtBlock value (k / 624)).getD (k % 624) 0)

/-- The word an `int` seed becomes in `mt19937 rng(seed)`: the conversion to the
unsigned `result_type` followed by the reduction modulo `2^32` of the seeding. -/
def seedWord (seed : Int) : Nat :=
  (seed % 4294967296).toNat

/-- Subtraction `a - b` in an unsigned type of `w` bits. -/
def usub (w a b : Nat) : Nat :=
  (a + (2 ^ w - b % 2 ^ w)) % 2 ^ w

/-- The value an `int` holds after an integer `x` is stored into it: `x` reduced
modulo `2^32` into `-2^31 .. 2^31 - 1`. -/
def toInt32 (x : Int) : Int :=
  (x + 2147483648) % 4294967296 - 2147483648

/-! ## configuration/algo1_generator.cpp and stress/sort_gener.cpp -/

/-- A sorting test case as printed: the size on the first line, the values on
the second, each followed by a blank. -/
structure SortCase where
  size : Int
  values : List Int
deriving DecidableEq, Repr

/-- The numbers of a sorting test case in the order they are printed. -/
def SortCase.tokens (c : SortCase) : List Int :=
  c.size :: c.values

/-- The loop `for (i = ...; i < n; i++) cout << f(rng()) << " ";` after `k` draws
have been made, with `rem = n - i` iterations left: the printed numbers. -/
def valueLoop (f : Nat → Int) (rng : Nat → Nat) : Nat → Nat → List Int
  | _, 0 => []
  | k, rem + 1 => f (rng k) :: valueLoop f rng (k + 1) rem

/-- Lines 17-24 of `algo1_generator.cpp` on a seeded engine whose draws are
`rng 0, rng 1, ...`.  `w` is the width of `std::mt19937::result_type`
(`uint_fast32_t`), in which `rng() % 100 - 30` is computed and printed. -/
def algo1_emit (w : Nat) (rng : Nat → Nat) : SortCase :=
  let n : Int := ((rng 0 % 20 + 1 : Nat) : Int)
  { size := n
    values := valueLoop (fun r => ((usub w (r % 100) 30 : Nat) : Int)) rng 1 n.toNat }

/-- The program `algo1_generator.cpp` on the input `seed`. -/
def algo1_generator (w : Nat) (seed : Int) : SortCase :=
  let seed := max 1 seed
  algo1_emit w (mt19937 (seedWord seed))

/-- Lines 11-17 of `sort_gener.cpp` on a seeded engine. -/
def sort_emit (w : Nat) (rng : Nat → Nat) : SortCase :=
  let n : Int := ((rng 0 % 20 + 1 : Nat) : Int)
  { size := n
    values := valueLoop (fun r => ((usub w (r % 200) 100 : Nat) : Int)) rng 1 n.toNat }

/-- The program `sort_gener.cpp` on the input `seed`. -/
def sort_gener (w : Nat) (seed : Int) : SortCase :=
  sort_emit w (mt19937 (seedWord seed))

/-! ## Reading a sorting test case (configuration/algo1_solution.cpp, lines 8-14) -/

/-- The input stream `cin`: the numerals not yet extracted and whether the
stream is still good (no `failbit`). -/
structure Cin where
  rest : List Int
  good : Bool
deriving DecidableEq, Repr

/-- The extraction `cin >> x` into an `int` that holds `old`: the value of `x`
afterwards and the stream afterwards.  On a failed stream nothing happens.  A
numeral outside the range of `int` is extracted, `x` becomes the nearest
`int` and the stream fails; at the end of the input `x` becomes 0 and the
stream fails. -/
def Cin.extract (s : Cin) (old : Int) : Int × Cin :=
  if s.good then
    match s.rest with
    | [] => (0, { rest := [], good := false })
    | t :: rest =>
      if t < -2147483648 then (-2147483648, { rest := rest, good := false })
      else if 2147483647 < t then (2147483647, { rest := rest, good := false })
      else (t, { rest := rest, good := true })
  else (old, s)

/-- The loop `for (i = ...; i < n; i++) cin >> nums[i];` over a zero-filled
vector with `rem` elements left: the elements read and the stream afterwards. -/
def readLoop : Nat → Cin → List Int × Cin
  | 0, s => ([], s)
  | rem + 1, s =>
    let (x, s1) := s.extract 0
    let (xs, s2) := readLoop rem s1
    (x :: xs, s2)

/-- The input phase `cin >> n; vector<int> nums(n); for (...) cin >> nums[i];`
of the sorting programs on a stream of numerals: the vector read and the
stream afterwards.  With a negative `n` the vector cannot be built and nothing
more is read. -/
def readArray (input : List Int) : List Int × Cin :=
  let (n, s) := Cin.extract { rest := input, good := true } 0
  readLoop n.toNat s

/-! ## stress/search_generator.cpp -/

/-- The library routine `std::shuffle(first, last, rng)` taken as given: from
the array and the draws of the engine it returns the rearranged array and the
number of draws it made.  The C++ standard leaves the use of the engine to the
library and fixes only that the result is a permutation of the array. -/
structure Shuffle where
  run : List Int → (Nat → Nat) → List Int × Nat
  perm : ∀ (arr : List Int) (rng : Nat → Nat), (run arr rng).1.Perm arr

/-- A searching test case as printed: size and target on the first line, the
array on the second, each element followed by a blank. -/
structure SearchCase where
  size : Int
  target : Int
  arr : List Int
deriving DecidableEq, Repr

/-- Lines 12-45 of `search_generator.cpp` on the input `seed` and a seeded
engine whose draws are `rng 0, rng 1, ...`.  Both right-hand sides are computed
in the unsigned result type of the engine and stored into the `int target`,
which keeps the value modulo `2^32` in the range of `int`; for the largest
`int` seed the sum `seed + 1` is taken to wrap around as well. -/
def search_emit (sh : Shuffle) (rng : Nat → Nat) (seed : Int) : SearchCase :=
  let seed := max 1 seed
  let shuffled := sh.run (iota seed.toNat) rng
  let k := shuffled.2
  let target : Int :=
    if rng k % 5 < 4 then toInt32 (((rng (k + 1) % seed.toNat : Nat) : Int) + 1)
    else toInt32 (seed + 1 + ((rng (k + 1) % 10 : Nat) : Int))
  { size := seed, target := target, arr := shuffled.1 }

/-- The program `search_generator.cpp` on the input `seed`. -/
def search_generator (sh : Shuffle) (seed : Int) : SearchCase :=
  search_emit sh (mt19937 (seedWord (max 1 seed))) seed

/-- A shuffle in the manner of Fisher and Yates on lists: the element at
position `rng k mod length` comes first, the others follow shuffled with the
next draws. -/
def pickShuffle (rng : Nat → Nat) : Nat → List Int → Nat → List Int
  | 0, l, _ => l
  | _ + 1, [], _ => []
  | fuel + 1, a :: l, k =>
    let j := rng k % (l.length + 1)
    (a :: l).getD j a :: pickShuffle rng fuel ((a :: l).eraseIdx j) (k + 1)

/-- The list shuffle as an instance of `std::shuffle`; it makes one draw for
every element. -/
def listShuffle : Shuffle where
  run arr rng := (pickShuffle rng arr.length arr 0, arr.length)
  perm arr rng := by
    have key : ∀ (fuel : Nat) (l : List Int) (k : Nat), (pickShuffle rng fuel l k).Perm l := by
      intro fuel
      induction fuel with
      | zero => intro l k; exact List.Perm.refl _
      | succ fuel ih =>
        intro l k
        cases l with
        | nil => exact List.Perm.refl _
        | cons a l =>
          have hj : rng k % (l.length + 1) < (a :: l).length := by
            simpa using Nat.mod_lt _ (Nat.succ_pos _)
          simp only [pickShuffle, List.getD_eq_getElem _ _ hj]
          exact ((ih _ _).cons _).trans
            (((List.erase_getElem hj).symm.cons _).trans
              (List.perm_cons_erase (List.getElem_mem hj)).symm)
    exact key _ _ _

/-! ## pattern/problem123_solution.cpp and configuration/sol_problem2.cpp -/

/-- The program `problem123_solution.cpp` on the input `n x[0..n-1]` with
`n = xs.length`: the printed number. -/
def problem123_solution (xs : List Int) : Int :=
  if xs.length = 0 then 0
  else xs.foldl (fun max_val x => max max_val x) (-1000000)

/-- The loop of `std::max_element`: `largest` is the element the result
iterator points at, replaced when a strictly greater element is met. -/
def max_element_loop : Int → List Int → Int
  | largest, [] => largest
  | largest, x :: rest =>
    if largest < x then max_element_loop x rest else max_element_loop largest rest

/-- The value `*std::max_element(first, last)`; on an empty range the iterator
returned is `last` and there is nothing to read. -/
def max_element : List Int → Option Int
  | [] => none
  | x :: rest => some (max_element_loop x rest)

/-- The program `sol_problem2.cpp` on the input `n nums[0..n-1]` with
`n = nums.length`: the printed number. -/
def sol_problem2 (nums : List Int) : Option Int :=
  if nums.length = 0 then some 0 else max_element nums


/-! ## pattern/binsearch.cpp -/

/-- What `binsearch.cpp` prints: the text `Empty array` or a number. -/
inductive BinsearchOutput where
  | emptyArray
  | value (v : Int)
deriving DecidableEq, Repr

/-- The program `binsearch.cpp` on the input `n arr[0..n-1]` with
`n = arr.length`; `none` is a read outside `arr`. -/
def binsearch (arr : List Int) : Option BinsearchOutput :=
  let n : Int := arr.length
  if n = 0 then some BinsearchOutput.emptyArray
  else
    let sorted := std_sort arr
    let left : Int := 0
    let right : Int := n - 1
    let middle := left + (right - left).tdiv 2
    if middle < 0 then none
    else (sorted[middle.toNat]?).map BinsearchOutput.value

/-! ## configuration/sol_problem1.cpp -/

/-- The program `sol_problem1.cpp` on the input `n nums[0..n-1]` with
`n = nums.length`: the printed `sum`.  Every `sum += x` stores its result into
the `int sum`; a sum outside the range of `int` is taken to wrap around. -/
def sol_problem1 (nums : List Int) : Int :=
  nums.foldl (fun sum x => toInt32 (sum + x)) 0

/-! ## The Comparator of the harness -/

/-- Modelled from the spec: the canonical form of an output blob.  The
Comparator is not among the sources; section 4.4 has it split the blob on
arbitrary whitespace runs and trim leading and trailing whitespace, so the
tokens are the non-empty pieces between whitespace characters. -/
def tokenize (blob : String) : List String :=
  ((blob.toList.splitOnP Char.isWhitespace).filter (fun t => !t.isEmpty)).map String.mk

/-- Modelled from the spec: the configuration option `mode` of the Comparator
(section 4.4), which is not among the sources. -/
inductive CompareMode where
  | exactSequence
  | unorderedMultiset
deriving DecidableEq, Repr

/-- Modelled from the spec: the diff summary of section 4.4, not among the
sources: the first differing token index with the expected and the actual
token there (`none` where a sequence has ended). -/
structure DiffSummary where
  index : Nat
  expected : Option String
  actual : Option String
deriving DecidableEq, Repr

/-- Modelled from the spec: the result `{Equivalent | Different(diffSummary)}`
of `compare` (section 4.4), not among the sources. -/
inductive CompareResult where
  | Equivalent
  | Different (diffSummary : DiffSummary)
deriving DecidableEq, Repr

/-- Modelled from the spec: the token-for-token comparison of section 4.4, not
among the sources; the first index at which the two token sequences differ,
counted from `i`. -/
def firstDiff : Nat → List String → List String → Option DiffSummary
  | _, [], [] => none
  | i, [], y :: _ => some { index := i, expected := none, actual := some y }
  | i, x :: _, [] => some { index := i, expected := some x, actual := none }
  | i, x :: xs, y :: ys =>
    if x = y then firstDiff (i + 1) xs ys
    else some { index := i, expected := some x, actual := some y }

/-- Modelled from the spec: `compare(expectedBlob, actualBlob)` of section 4.4,
which is not among the sources.  Both blobs are canonicalised; in
`exact-sequence` mode the token sequences are compared for exact equality, in
`unordered-multiset` mode they are compared as multisets. -/
def compare (mode : CompareMode) (expectedBlob actualBlob : String) : CompareResult :=
  let expected := tokenize expectedBlob
  let actual := tokenize actualBlob
  match mode with
  | CompareMode.exactSequence =>
    match firstDiff 0 expected actual with
    | none => CompareResult.Equivalent
    | some d => CompareResult.Different d
  | CompareMode.unorderedMultiset =>
    if expected.isPerm actual then CompareResult.Equivalent
    else
      match firstDiff 0 expected actual with
      | none => CompareResult.Equivalent
      | some d => CompareResult.Different d

/-! ## Facts about the library routines -/

theorem std_sort_sorted (arr : List Int) : (std_sort arr).Sorted (· ≤ ·) :=
  List.sorted_insertionSort _ _

theorem std_sort_perm (arr : List Int) : (std_sort arr).Perm arr :=
  List.perm_insertionSort _ _

theorem std_sort_length (arr : List Int) : (std_sort arr).length = arr.length :=
  (std_sort_perm arr).length_eq

theorem mem_std_sort (arr : List Int) (a : Int) : a ∈ std_sort arr ↔ a ∈ arr :=
  (std_sort_perm arr).mem_iff

/-- Every ascending arrangement of the array is the one `std_sort` returns. -/
theorem std_sort_unique (arr l : List Int) (hperm : l.Perm arr) (hs : l.Sorted (· ≤ ·)) :
    l = std_sort arr :=
  List.eq_of_perm_of_sorted (hperm.trans (std_sort_perm arr).symm) hs (std_sort_sorted arr)

set_option maxRecDepth 100000 in
/-- The engine model gives the known first draws of `mt19937 rng(1)` and of a
default-seeded `mt19937` (seed 5489). -/
theorem mt19937_first_draws :
    (List.range 10).map (mt19937 1)
        = [1791095845, 4282876139, 3093770124, 4005303368, 491263, 550290313, 1298508491,
            4290846341, 630311759, 1013994432] ∧
      mt19937 5489 0 = 3499211612 := by
  decide!

/-- In an ascending list, a smaller index holds a smaller-or-equal element. -/
theorem sorted_getElem?_le {s : List Int} (hs : s.Sorted (· ≤ ·)) {i j : Nat} {a b : Int}
    (hi : s[i]? = some a) (hj : s[j]? = some b) (hij : i ≤ j) : a ≤ b := by
  obtain ⟨hi', rfl⟩ := List.getElem?_eq_some.1 hi
  obtain ⟨hj', rfl⟩ := List.getElem?_eq_some.1 hj
  rcases Nat.eq_or_lt_of_le hij with h | h
  · subst h; exact le_refl _
  · exact List.pairwise_iff_getElem.1 hs i j hi' hj' h

/-! ## Binary search -/

/-- The midpoint computed by the loop body lies between `left` and `right`. -/
theorem mid_bounds (left right : Int) (h : left ≤ right) :
    left ≤ left + (right - left).tdiv 2 ∧ left + (right - left).tdiv 2 ≤ right := by
  rw [Int.tdiv_eq_ediv (by omega) (by decide)]
  omega

/-- Invariant of the binary search on an ascending array: everything left of
`left` is below the target, everything right of `right` is above it.  With
more fuel than the width of the window the loop ends, with `-1` only when the
target is absent and otherwise with an index holding the target. -/
theorem whileLoop_spec (s : List Int) (target : Int) (hs : s.Sorted (· ≤ ·)) :
    ∀ (fuel : Nat) (left right : Int), 0 ≤ left → right < s.length → left ≤ right + 1 →
      right - left + 1 < fuel →
      (∀ (i : Nat) (a : Int), s[i]? = some a → (i : Int) < left → a < target) →
      (∀ (i : Nat) (a : Int), s[i]? = some a → right < (i : Int) → target < a) →
      ∃ r, whileLoop s target fuel left right = some r ∧
        ((r = -1 ∧ target ∉ s) ∨ (0 ≤ r ∧ r < s.length ∧ s[r.toNat]? = some target)) := by
  intro fuel
  induction fuel with
  | zero => intro left right _ _ h1 h2; exfalso; simp at h2; omega
  | succ fuel ih =>
    intro left right h0 hn h1 hf hlo hhi
    unfold whileLoop
    by_cases hlr : left ≤ right
    · obtain ⟨hm1, hm2⟩ := mid_bounds left right hlr
      have hmlt : (left + (right - left).tdiv 2).toNat < s.length := by omega
      have hfuel : right - left + 1 < (fuel : Int) + 1 := by exact_mod_cast hf
      simp only [hlr, if_true, loopBody, show ¬ (left + (right - left).tdiv 2 < 0) by omega,
        if_false, List.getElem?_eq_getElem hmlt]
      by_cases heq : s[(left + (right - left).tdiv 2).toNat] = target
      · simp only [heq, if_true]
        refine ⟨_, rfl, Or.inr ⟨by omega, by omega, ?_⟩⟩
        rw [List.getElem?_eq_getElem hmlt, heq]
      · by_cases hlt : s[(left + (right - left).tdiv 2).toNat] < target
        · simp only [heq, if_false, hlt, if_true]
          apply ih _ _ (by omega) hn (by omega) (by omega) _ hhi
          intro i a hi hil
          have := sorted_getElem?_le hs hi (List.getElem?_eq_getElem hmlt) (by omega)
          omega
        · simp only [heq, if_false, hlt]
          apply ih _ _ h0 (by omega) (by omega) (by omega) hlo
          intro i a hi hil
          have := sorted_getElem?_le hs (List.getElem?_eq_getElem hmlt) hi (by omega)
          omega
    · simp only [hlr, if_false]
      refine ⟨-1, rfl, Or.inl ⟨rfl, ?_⟩⟩
      intro hmem
      obtain ⟨i, hi⟩ := List.mem_iff_getElem?.1 hmem
      by_cases hil : (i : Int) < left
      · have := hlo i target hi hil; omega
      · have := hhi i target hi (by omega); omega

/-- More fuel does not change a result of the loop. -/
theorem whileLoop_mono (s : List Int) (target : Int) :
    ∀ (fuel : Nat) (left right res : Int), whileLoop s target fuel left right = some res →
      ∀ fuel', fuel ≤ fuel' → whileLoop s target fuel' left right = some res := by
  intro fuel
  induction fuel with
  | zero => intro left right res h; simp [whileLoop] at h
  | succ fuel ih =>
    intro left right res h fuel' hle
    obtain ⟨f, rfl⟩ : ∃ f, fuel' = f + 1 := ⟨fuel' - 1, by omega⟩
    unfold whileLoop at h ⊢
    by_cases hlr : left ≤ right
    · simp only [hlr, if_true] at h ⊢
      rcases hb : loopBody s target left right with _ | (m | ⟨l, r⟩)
      · simp [hb] at h
      · simpa [hb] using h
      · simp only [hb] at h ⊢
        exact ih _ _ _ h f (by omega)
    · simpa [hlr] using h

/-- A pass of the loop body that does not break narrows the window. -/
theorem loopBody_decreases (s : List Int) (target left right l r : Int) (hlr : left ≤ right)
    (h : loopBody s target left right = some (Sum.inr (l, r))) : r - l < right - left := by
  obtain ⟨hm1, hm2⟩ := mid_bounds left right hlr
  unfold loopBody at h
  by_cases hneg : left + (right - left).tdiv 2 < 0
  · simp [hneg] at h
  · simp only [hneg, if_false] at h
    rcases hget : s[(left + (right - left).tdiv 2).toNat]? with _ | a
    · simp [hget] at h
    · simp only [hget] at h
      split_ifs at h
      · simp at h
      · simp only [Option.some.injEq, Sum.inr.injEq, Prod.mk.injEq] at h
        omega
      · simp only [Option.some.injEq, Sum.inr.injEq, Prod.mk.injEq] at h
        omega

/-- The binary search of `search_solution` returns, with `-1` only when the
target is absent and otherwise with an index of the sorted array that holds
the target. -/
theorem search_solution_spec (arr : List Int) (target : Int) :
    ∃ r, search_solution arr target = some r ∧
      ((r = -1 ∧ target ∉ arr) ∨
        (0 ≤ r ∧ r < arr.length ∧ (std_sort arr)[r.toNat]? = some target)) := by
  have hlen := std_sort_length arr
  obtain ⟨r, hr, hcase⟩ := whileLoop_spec (std_sort arr) target (std_sort_sorted arr)
    (arr.length + 1) 0 ((arr.length : Int) - 1) (le_refl _) (by rw [hlen]; omega) (by omega)
    (by push_cast; omega)
    (by intro i a _ hi; omega)
    (by
      intro i a hi hlt
      obtain ⟨hi', _⟩ := List.getElem?_eq_some.1 hi
      omega)
  refine ⟨r, hr, ?_⟩
  rcases hcase with ⟨h1, h2⟩ | ⟨h1, h2, h3⟩
  · exact Or.inl ⟨h1, fun h => h2 ((mem_std_sort arr target).2 h)⟩
  · exact Or.inr ⟨h1, by rw [hlen] at h2; exact h2, h3⟩

/-! ## Linear search -/

/-- The linear search returns, with `-1` only when the target is absent and
otherwise with the first index that holds the target. -/
theorem linearScan_spec (s : List Int) (target : Int) :
    ∀ (rem i : Nat), i + rem = s.length →
      (∀ (j : Nat) (a : Int), s[j]? = some a → j < i → a ≠ target) →
      ∃ r, linearScan s target i rem = some r ∧
        ((r = -1 ∧ target ∉ s) ∨
          (0 ≤ r ∧ r < s.length ∧ s[r.toNat]? = some target ∧
            ∀ (j : Nat) (a : Int), s[j]? = some a → j < r.toNat → a ≠ target)) := by
  intro rem
  induction rem with
  | zero =>
    intro i hi hbefore
    refine ⟨-1, rfl, Or.inl ⟨rfl, ?_⟩⟩
    intro hmem
    obtain ⟨j, hj⟩ := List.mem_iff_getElem?.1 hmem
    obtain ⟨hj', _⟩ := List.getElem?_eq_some.1 hj
    exact hbefore j target hj (by omega) rfl
  | succ rem ih =>
    intro i hi hbefore
    have hil : i < s.length := by omega
    unfold linearScan
    simp only [List.getElem?_eq_getElem hil]
    by_cases heq : s[i] = target
    · simp only [heq, if_true]
      refine ⟨i, rfl, Or.inr ⟨by omega, by omega, ?_, ?_⟩⟩
      · simp [List.getElem?_eq_getElem hil, heq]
      · simpa using hbefore
    · simp only [heq, if_false]
      apply ih (i + 1) (by omega)
      intro j a hj hlt
      rcases Nat.lt_succ_iff_lt_or_eq.1 hlt with h | h
      · exact hbefore j a hj h
      · subst h
        rw [List.getElem?_eq_getElem hil] at hj
        cases hj
        exact heq

theorem search_brute_spec (arr : List Int) (target : Int) :
    ∃ r, search_brute arr target = some r ∧
      ((r = -1 ∧ target ∉ arr) ∨
        (0 ≤ r ∧ r < arr.length ∧ (std_sort arr)[r.toNat]? = some target ∧
          ∀ (j : Nat) (a : Int), (std_sort arr)[j]? = some a → j < r.toNat → a ≠ target)) := by
  have hlen := std_sort_length arr
  obtain ⟨r, hr, hcase⟩ := linearScan_spec (std_sort arr) target arr.length 0
    (by omega) (by intro j a _ h; omega)
  refine ⟨r, hr, ?_⟩
  rcases hcase with ⟨h1, h2⟩ | ⟨h1, h2, h3, h4⟩
  · exact Or.inl ⟨h1, fun h => h2 ((mem_std_sort arr target).2 h)⟩
  · exact Or.inr ⟨h1, by rw [hlen] at h2; exact h2, h3, h4⟩

/-! ## The array `1 .. n` -/

theorem iota_length (n : Nat) : (iota n).length = n := by
  simp [iota]

theorem iota_getElem? (n i : Nat) (a : Int) (h : (iota n)[i]? = some a) :
    i < n ∧ a = (i : Int) + 1 := by
  obtain ⟨hi, ha⟩ := List.getElem?_eq_some.1 h
  simp only [iota, List.getElem_map, List.getElem_range] at ha
  exact ⟨by simpa [iota] using hi, ha.symm⟩

theorem mem_iota (n : Nat) (a : Int) : a ∈ iota n ↔ 1 ≤ a ∧ a ≤ n := by
  simp only [iota, List.mem_map, List.mem_range]
  constructor
  · rintro ⟨i, hi, rfl⟩
    omega
  · rintro ⟨h1, h2⟩
    exact ⟨(a - 1).toNat, by omega, by omega⟩

theorem iota_sorted (n : Nat) : (iota n).Sorted (· ≤ ·) := by
  unfold iota List.Sorted
  rw [List.pairwise_map]
  exact (List.pairwise_lt_range n).imp (fun h => by omega)

/-- The sorted form of a permutation of `1 .. n` is `1 .. n`. -/
theorem std_sort_of_perm_iota (n : Nat) (arr : List Int) (hperm : arr.Perm (iota n)) :
    std_sort arr = iota n :=
  List.eq_of_perm_of_sorted ((std_sort_perm arr).trans hperm) (std_sort_sorted arr)
    (iota_sorted n)

/-- On `1 .. n` an index that holds the target is `target - 1`. -/
theorem index_on_iota (n : Nat) (arr : List Int) (hperm : arr.Perm (iota n)) (target r : Int)
    (h : (r = -1 ∧ target ∉ arr) ∨
      (0 ≤ r ∧ r < arr.length ∧ (std_sort arr)[r.toNat]? = some target)) :
    r = if 1 ≤ target ∧ target ≤ n then target - 1 else -1 := by
  rcases h with ⟨h1, h2⟩ | ⟨h1, _, h3⟩
  · have : ¬ (1 ≤ target ∧ target ≤ n) := fun hc =>
      h2 (hperm.mem_iff.2 ((mem_iota n target).2 hc))
    rw [if_neg this, h1]
  · rw [std_sort_of_perm_iota n arr hperm] at h3
    obtain ⟨hi, ha⟩ := iota_getElem? n _ _ h3
    rw [if_pos (by omega)]
    omega

/-! ## Claims on the search programs -/

/-- C1: on every array that is a permutation of `1 .. n` and every target,
`search_solution` and `search_brute` print the same value: `target - 1` when
`1 <= target <= n` and `-1` otherwise. -/
theorem search_agree_on_generated (n : Nat) (arr : List Int) (hperm : arr.Perm (iota n))
    (target : Int) :
    search_solution arr target = search_brute arr target ∧
      search_solution arr target =
        some (if 1 ≤ target ∧ target ≤ n then target - 1 else -1) := by
  obtain ⟨r, hr, hcase⟩ := search_solution_spec arr target
  obtain ⟨r', hr', hcase'⟩ := search_brute_spec arr target
  have e := index_on_iota n arr hperm target r hcase
  have e' := index_on_iota n arr hperm target r'
    (hcase'.imp id (fun h => ⟨h.1, h.2.1, h.2.2.1⟩))
  rw [hr, hr', e, e']
  exact ⟨rfl, rfl⟩

theorem search_agree_on_generated_witness :
    List.Perm [2, 3, 1] (iota 3) ∧
      (search_solution [2, 3, 1] 3 = search_brute [2, 3, 1] 3 ∧
        search_solution [2, 3, 1] 3 =
          some (if (1 : Int) ≤ 3 ∧ (3 : Int) ≤ (3 : Nat) then 3 - 1 else -1)) :=
  ⟨by decide, search_agree_on_generated 3 [2, 3, 1] (by decide) 3⟩

/-- C3: `search_solution` prints `-1` exactly when the target does not occur
in the array; otherwise it prints an index `r` with `0 <= r < n` at which the
array sorted ascending holds the target. -/
theorem search_solution_correct (arr : List Int) (target : Int) :
    ∃ r, search_solution arr target = some r ∧
      (r = -1 ↔ target ∉ arr) ∧
      (r ≠ -1 → 0 ≤ r ∧ r < arr.length ∧ (std_sort arr)[r.toNat]? = some target) := by
  obtain ⟨r, hr, hcase⟩ := search_solution_spec arr target
  refine ⟨r, hr, ?_, ?_⟩
  · rcases hcase with ⟨h1, h2⟩ | ⟨h1, _, h3⟩
    · exact ⟨fun _ => h2, fun _ => h1⟩
    · have hmem : target ∈ arr :=
        (mem_std_sort arr target).1 (List.mem_iff_getElem?.2 ⟨_, h3⟩)
      exact ⟨fun h => by omega, fun h => absurd hmem h⟩
  · intro hne
    rcases hcase with ⟨h1, _⟩ | h
    · exact absurd h1 hne
    · exact h

theorem search_solution_correct_witness :
    ∃ r, search_solution [3, 1, 2] 2 = some r ∧
      (r = -1 ↔ (2 : Int) ∉ ([3, 1, 2] : List Int)) ∧
      (r ≠ -1 → 0 ≤ r ∧ r < ([3, 1, 2] : List Int).length ∧
        (std_sort [3, 1, 2])[r.toNat]? = some 2) :=
  search_solution_correct [3, 1, 2] 2

/-- C8: the loop `while (left <= right)` of `search_solution` exits on every
input: `n + 1` evaluations of the loop condition are enough for a result, more
fuel gives the same result, and every pass of the body that does not break
strictly decreases `right - left`. -/
theorem search_solution_terminates (arr : List Int) (target : Int) :
    (∃ r, search_solution arr target = some r) ∧
      (∀ fuel, arr.length + 1 ≤ fuel →
        whileLoop (std_sort arr) target fuel 0 ((arr.length : Int) - 1)
          = search_solution arr target) ∧
      (∀ left right l r : Int, left ≤ right →
        loopBody (std_sort arr) target left right = some (Sum.inr (l, r)) →
        r - l < right - left) := by
  obtain ⟨r, hr, _⟩ := search_solution_spec arr target
  refine ⟨⟨r, hr⟩, ?_, ?_⟩
  · intro fuel hfuel
    rw [hr]
    exact whileLoop_mono _ _ _ _ _ _ hr fuel hfuel
  · intro left right l r' hlr h
    exact loopBody_decreases _ _ _ _ _ _ hlr h

theorem search_solution_terminates_witness :
    whileLoop (std_sort [3, 1, 2]) 3 9 0 ((([3, 1, 2] : List Int).length : Int) - 1)
        = search_solution [3, 1, 2] 3 ∧
      (2 : Int) - 2 < 2 - 0 :=
  ⟨(search_solution_terminates [3, 1, 2] 3).2.1 9 (by decide),
    (search_solution_terminates [3, 1, 2] 3).2.2 0 2 2 2 (by decide) (by decide)⟩

/-! ## Bubble sort -/

theorem compareSwap_cons (x : Int) (l : List Int) (j : Nat) :
    compareSwap (x :: l) (j + 1) = (compareSwap l j).map (fun r => x :: r) := by
  unfold compareSwap
  simp only [List.getElem?_cons_succ]
  rcases l[j]? with _ | a
  · rfl
  · rcases l[j + 1]? with _ | b
    · rfl
    · by_cases h : a > b <;> simp [h]

/-- The compare-and-swap at the position after `pre` orders the two elements
that follow `pre`. -/
theorem compareSwap_append (pre : List Int) (a b : Int) (t : List Int) :
    compareSwap (pre ++ a :: b :: t) pre.length
      = some (pre ++ (if a > b then b :: a :: t else a :: b :: t)) := by
  induction pre with
  | nil =>
    by_cases h : a > b <;> simp [compareSwap, h]
  | cons x pre ih =>
    simp only [List.cons_append, List.length_cons, compareSwap_cons, ih, Option.map_some']

/-- The inner loop from the position after `pre` to the end of the array is
one pass of `bubbleCarry`. -/
theorem innerLoop_append (t : List Int) :
    ∀ (pre : List Int) (a : Int),
      innerLoop pre.length t.length (pre ++ a :: t) = some (pre ++ bubbleCarry a t) := by
  induction t with
  | nil => intro pre a; rfl
  | cons b t ih =>
    intro pre a
    simp only [List.length_cons, innerLoop, compareSwap_append, Option.some_bind, bubbleCarry]
    by_cases h : a > b
    · simp only [h, if_true]
      have := ih (pre ++ [b]) a
      simpa using this
    · simp only [h, if_false]
      have := ih (pre ++ [a]) b
      simpa using this

theorem innerLoop_eq_bubblePass (nums : List Int) :
    innerLoop 0 (nums.length - 1) nums = some (bubblePass nums) := by
  cases nums with
  | nil => rfl
  | cons a t => simpa [bubblePass] using innerLoop_append t [] a

theorem bubbleCarry_perm (t : List Int) : ∀ a : Int, (bubbleCarry a t).Perm (a :: t) := by
  induction t with
  | nil => intro a; exact List.Perm.refl _
  | cons b t ih =>
    intro a
    unfold bubbleCarry
    by_cases h : a > b
    · simp only [h, if_true]
      exact ((ih a).cons b).trans (List.Perm.swap a b t)
    · simp only [h, if_false]
      exact (ih b).cons a

theorem bubblePass_perm (l : List Int) : (bubblePass l).Perm l := by
  cases l with
  | nil => exact List.Perm.refl _
  | cons a t => exact bubbleCarry_perm t a

/-- A pass ends with an element that is at least the carried one and at least
everything before it. -/
theorem bubbleCarry_last (t : List Int) :
    ∀ a : Int, ∃ init m, bubbleCarry a t = init ++ [m] ∧ a ≤ m ∧ ∀ x ∈ init, x ≤ m := by
  induction t with
  | nil => intro a; exact ⟨[], a, rfl, le_refl _, by simp⟩
  | cons b t ih =>
    intro a
    unfold bubbleCarry
    by_cases h : a > b
    · obtain ⟨init, m, e, ham, hall⟩ := ih a
      refine ⟨b :: init, m, by simp [h, e], ham, ?_⟩
      intro x hx
      rcases List.mem_cons.1 hx with rfl | hx
      · omega
      · exact hall x hx
    · obtain ⟨init, m, e, hbm, hall⟩ := ih b
      refine ⟨a :: init, m, by simp [h, e], by omega, ?_⟩
      intro x hx
      rcases List.mem_cons.1 hx with rfl | hx
      · omega
      · exact hall x hx

/-- A pass leaves an ascending list that starts at or above the carried
element as it is. -/
theorem bubbleCarry_sorted (ys : List Int) :
    ∀ a : Int, (a :: ys).Sorted (· ≤ ·) → bubbleCarry a ys = a :: ys := by
  induction ys with
  | nil => intro a _; rfl
  | cons y ys ih =>
    intro a hs
    have hay : a ≤ y := List.rel_of_sorted_cons hs y (List.mem_cons_self _ _)
    unfold bubbleCarry
    rw [if_neg (by omega), ih y hs.of_cons]

/-- A pass does not touch an ascending tail that lies above the rest. -/
theorem bubbleCarry_append (xs ys : List Int) (hys : ys.Sorted (· ≤ ·)) :
    ∀ a : Int, (∀ x ∈ a :: xs, ∀ y ∈ ys, x ≤ y) →
      bubbleCarry a (xs ++ ys) = bubbleCarry a xs ++ ys := by
  induction xs with
  | nil =>
    intro a h
    have : (a :: ys).Sorted (· ≤ ·) :=
      List.sorted_cons.2 ⟨fun y hy => h a (List.mem_cons_self _ _) y hy, hys⟩
    simpa [bubbleCarry] using bubbleCarry_sorted ys a this
  | cons b xs ih =>
    intro a h
    simp only [List.cons_append, bubbleCarry]
    by_cases hab : a > b
    · simp only [hab, if_true, List.cons_append]
      refine congrArg _ (ih a ?_)
      intro x hx y hy
      rcases List.mem_cons.1 hx with rfl | hx
      · exact h _ (List.mem_cons_self _ _) y hy
      · exact h x (List.mem_cons_of_mem _ (List.mem_cons_of_mem _ hx)) y hy
    · simp only [hab, if_false, List.cons_append]
      refine congrArg _ (ih b ?_)
      intro x hx y hy
      exact h x (List.mem_cons_of_mem _ hx) y hy

theorem bubblePass_sortedTail (k : Nat) (l : List Int) (h : SortedTail k l)
    (hk : k < l.length) : SortedTail (k + 1) (bubblePass l) := by
  obtain ⟨xs, ys, rfl, hlen, hys, hle⟩ := h
  cases xs with
  | nil => simp at hk; omega
  | cons a xs =>
    obtain ⟨init, m, e, _, hall⟩ := bubbleCarry_last xs a
    have hperm := bubbleCarry_perm xs a
    have hmem : ∀ x, x ∈ init ++ [m] → x ∈ a :: xs := fun x hx =>
      hperm.mem_iff.1 (e ▸ hx)
    have hm : ∀ y ∈ ys, m ≤ y := fun y hy => hle m (hmem m (by simp)) y hy
    refine ⟨init, m :: ys, ?_, by simp [hlen], List.sorted_cons.2 ⟨hm, hys⟩, ?_⟩
    · simp only [List.cons_append, bubblePass]
      rw [bubbleCarry_append xs ys hys a hle, e]
      simp
    · intro x hx y hy
      rcases List.mem_cons.1 hy with rfl | hy
      · exact hall x hx
      · exact hle x (hmem x (by simp [hx])) y hy

/-- The outer loop with `rem` passes left, started on an array whose last `k`
elements are in place, returns a permutation whose last `k + rem` elements
are in place. -/
theorem outerLoop_spec (n : Nat) :
    ∀ (rem k : Nat) (nums : List Int), nums.length = n → k + rem ≤ n → SortedTail k nums →
      ∃ out, outerLoop n rem nums = some out ∧ out.Perm nums ∧ SortedTail (k + rem) out := by
  intro rem
  induction rem with
  | zero => intro k nums _ _ h; exact ⟨nums, rfl, List.Perm.refl _, h⟩
  | succ rem ih =>
    intro k nums hlen hk h
    have hpass : innerLoop 0 (n - 1) nums = some (bubblePass nums) := by
      rw [← hlen]; exact innerLoop_eq_bubblePass nums
    have hp := bubblePass_perm nums
    obtain ⟨out, ho, hperm, ht⟩ := ih (k + 1) (bubblePass nums)
      (by rw [hp.length_eq, hlen]) (by omega)
      (bubblePass_sortedTail k nums h (by omega))
    refine ⟨out, ?_, hperm.trans hp, ?_⟩
    · simp only [outerLoop, hpass, Option.some_bind, ho]
    · have : k + (rem + 1) = k + 1 + rem := by omega
      rw [this]; exact ht

/-- C2: for every list of ints, `sort_bru` prints the elements of the list in
non-decreasing order (a sorted permutation of the input), and on the input
`3 / 7 1 4` it prints `1 4 7`. -/
theorem sort_bru_sorts :
    (∀ nums : List Int, ∃ out, sort_bru nums = some out ∧
      out.Sorted (· ≤ ·) ∧ out.Perm nums) ∧
      sort_bru [7, 1, 4] = some [1, 4, 7] := by
  refine ⟨?_, by decide⟩
  intro nums
  obtain ⟨out, ho, hperm, xs, ys, e, hlen, hys, _⟩ :=
    outerLoop_spec nums.length nums.length 0 nums rfl (by omega)
      ⟨nums, [], by simp, rfl, List.sorted_nil, by simp⟩
  refine ⟨out, ho, ?_, hperm⟩
  have hl : out.length = nums.length := hperm.length_eq
  have hxs : xs = [] := by
    have : xs.length = 0 := by
      have := congrArg List.length e
      simp only [List.length_append] at this
      omega
    exact List.length_eq_zero.1 this
  rw [e, hxs]
  simpa using hys

/-! ## The generators -/

theorem valueLoop_length (f : Nat → Int) (rng : Nat → Nat) :
    ∀ (rem k : Nat), (valueLoop f rng k rem).length = rem := by
  intro rem
  induction rem with
  | zero => intro k; rfl
  | succ rem ih => intro k; simp [valueLoop, ih]

/-- Every number printed by the value loop is `f` of one of the draws. -/
theorem mem_valueLoop (f : Nat → Int) (rng : Nat → Nat) (v : Int) :
    ∀ (rem k : Nat), v ∈ valueLoop f rng k rem → ∃ i, i < rem ∧ v = f (rng (k + i)) := by
  intro rem
  induction rem with
  | zero => intro k h; simp [valueLoop] at h
  | succ rem ih =>
    intro k h
    simp only [valueLoop, List.mem_cons] at h
    rcases h with rfl | h
    · exact ⟨0, by omega, rfl⟩
    · obtain ⟨i, hi, e⟩ := ih (k + 1) h
      exact ⟨i + 1, by omega, by rw [e]; congr 2; omega⟩

/-- An unsigned subtraction below zero wraps to the top of the range. -/
theorem usub_wraps (w a b : Nat) (hb : b < 2 ^ w) (h : a < b) :
    usub w a b = 2 ^ w - (b - a) := by
  unfold usub
  rw [Nat.mod_eq_of_lt hb, Nat.mod_eq_of_lt (by omega)]
  omega

theorem usub_exact (w a b : Nat) (ha : a < 2 ^ w) (h : b ≤ a) : usub w a b = a - b := by
  unfold usub
  have hb : b < 2 ^ w := by omega
  rw [Nat.mod_eq_of_lt hb]
  have : a + (2 ^ w - b) = (a - b) + 2 ^ w := by omega
  rw [this, Nat.add_mod_right, Nat.mod_eq_of_lt (by omega)]

theorem toInt32_of_range (x : Int) (h1 : -2147483648 ≤ x) (h2 : x ≤ 2147483647) :
    toInt32 x = x := by
  unfold toInt32
  omega

/-- The size line of `algo1_emit` is between 1 and 20 and counts the values. -/
theorem algo1_emit_shape (w : Nat) (rng : Nat → Nat) :
    1 ≤ (algo1_emit w rng).size ∧ (algo1_emit w rng).size ≤ 20 ∧
      ((algo1_emit w rng).values.length : Int) = (algo1_emit w rng).size := by
  simp only [algo1_emit, valueLoop_length]
  omega

theorem sort_emit_shape (w : Nat) (rng : Nat → Nat) :
    1 ≤ (sort_emit w rng).size ∧ (sort_emit w rng).size ≤ 20 ∧
      ((sort_emit w rng).values.length : Int) = (sort_emit w rng).size := by
  simp only [sort_emit, valueLoop_length]
  omega

/-- The values of `algo1_emit` as numbers: a draw `r` with `r % 100 >= 30`
prints `r % 100 - 30`, a draw with `r % 100 < 30` prints
`2^w - (30 - r % 100)`.  No printed value is negative. -/
theorem algo1_emit_values (w : Nat) (hw : 100 ≤ 2 ^ w) (rng : Nat → Nat) (v : Int)
    (hv : v ∈ (algo1_emit w rng).values) :
    (0 ≤ v ∧ v ≤ 69) ∨ ((2 : Int) ^ w - 30 ≤ v ∧ v < (2 : Int) ^ w) := by
  obtain ⟨i, _, rfl⟩ := mem_valueLoop _ _ _ _ _ hv
  have hm : rng (1 + i) % 100 < 100 := Nat.mod_lt _ (by decide)
  by_cases h : rng (1 + i) % 100 < 30
  · right
    rw [usub_wraps w _ 30 (by omega) h]
    have : (30 : Nat) - rng (1 + i) % 100 ≤ 2 ^ w := by omega
    push_cast [Nat.cast_sub this, Nat.cast_sub (Nat.le_of_lt h)]
    omega
  · left
    rw [usub_exact w _ 30 (by omega) (by omega)]
    omega

/-- Reading a test case whose numerals all fit an `int` gives back the values
and uses up the input. -/
theorem readLoop_of_int (vals : List Int)
    (h : ∀ v ∈ vals, -2147483648 ≤ v ∧ v ≤ 2147483647) (rest : List Int) :
    readLoop vals.length { rest := vals ++ rest, good := true }
      = (vals, { rest := rest, good := true }) := by
  induction vals with
  | nil => rfl
  | cons v vals ih =>
    have hv := h v (List.mem_cons_self _ _)
    have ih' := ih (fun x hx => h x (List.mem_cons_of_mem _ hx))
    simp only [List.length_cons, readLoop, Cin.extract, List.cons_append, if_true,
      show ¬ v < -2147483648 by omega, show ¬ (2147483647 < v) by omega, if_false, ih']

/-! ## Claims on the generators -/

/-- The value loop reads only the draws `k .. k + rem - 1`. -/
theorem valueLoop_congr (f : Nat → Int) (rng rng' : Nat → Nat) :
    ∀ (rem k : Nat), (∀ i, i < rem → rng (k + i) = rng' (k + i)) →
      valueLoop f rng k rem = valueLoop f rng' k rem := by
  intro rem
  induction rem with
  | zero => intro k _; rfl
  | succ rem ih =>
    intro k h
    have h0 := h 0 (by omega)
    simp only [Nat.add_zero] at h0
    simp only [valueLoop, h0]
    congr 1
    apply ih
    intro i hi
    have := h (i + 1) (by omega)
    rwa [show k + (i + 1) = k + 1 + i by omega] at this

/-- The sorting generators read at most the first 21 draws of the engine. -/
theorem sort_emit_congr (w : Nat) (rng rng' : Nat → Nat) (h : ∀ k, k ≤ 20 → rng k = rng' k) :
    algo1_emit w rng = algo1_emit w rng' ∧ sort_emit w rng = sort_emit w rng' := by
  have h0 := h 0 (by omega)
  have hlt : rng' 0 % 20 < 20 := Nat.mod_lt _ (by decide)
  simp only [algo1_emit, sort_emit, h0]
  constructor <;>
  · congr 1
    apply valueLoop_congr
    intro i hi
    apply h
    have : (((rng' 0 % 20 + 1 : Nat) : Int)).toNat = rng' 0 % 20 + 1 := Int.toNat_ofNat _
    omega

set_option maxRecDepth 100000 in
/-- C5: on the seed 1 both sorting generators print values far above their
documented ranges: `rng() % 100 - 30` and `rng() % 200 - 100` are computed in
the unsigned result type of the engine, so a difference below zero is printed
as `2^w` minus its amount (here for `w = 64` and `w = 32`). -/
theorem generator_values_wrap :
    (algo1_generator 64 1).values
        = [9, 18446744073709551610, 38, 33, 18446744073709551599, 61] ∧
      (algo1_generator 32 1).values = [9, 4294967290, 38, 33, 4294967279, 61] ∧
      (sort_gener 64 1).values
        = [39, 24, 68, 18446744073709551579, 13, 18446744073709551607] ∧
      (sort_gener 32 1).values = [39, 24, 68, 4294967259, 13, 4294967287] := by
  decide!

set_option maxRecDepth 100000 in
/-- C6: for every seed the size line of `algo1_generator` and of `sort_gener`
is between 1 and 20 and exactly that many values follow; but on the seed 1 a
program that reads `n` and then `n` `int`s does not get through the case: the
first value outside the range of `int` fails the stream and the numerals after
it stay unread. -/
theorem sort_case_shape_and_reading :
    (∀ (w : Nat) (seed : Int),
      1 ≤ (algo1_generator w seed).size ∧ (algo1_generator w seed).size ≤ 20 ∧
        ((algo1_generator w seed).values.length : Int) = (algo1_generator w seed).size) ∧
      (∀ (w : Nat) (seed : Int),
        1 ≤ (sort_gener w seed).size ∧ (sort_gener w seed).size ≤ 20 ∧
          ((sort_gener w seed).values.length : Int) = (sort_gener w seed).size) ∧
      readArray (algo1_generator 64 1).tokens
        = ([9, 2147483647, 0, 0, 0, 0],
            { rest := [38, 33, 18446744073709551599, 61], good := false }) ∧
      readArray (sort_gener 64 1).tokens
        = ([39, 24, 68, 2147483647, 0, 0],
            { rest := [13, 18446744073709551607], good := false }) := by
  refine ⟨fun w seed => algo1_emit_shape w _, fun w seed => sort_emit_shape w _, ?_, ?_⟩
  · decide!
  · decide!

/-- For every input seed, library shuffle and stream of draws,
`search_generator` prints `n = max(1, seed)` and `n` array values that are a
permutation of `1 .. n`; when `n + 10` fits an `int` the target is either in
`1 .. n`, and then in the array, or in `n + 1 .. n + 10`, and then not in it. -/
theorem search_emit_wellformed (sh : Shuffle) (rng : Nat → Nat) (seed : Int) :
    (search_emit sh rng seed).size = max 1 seed ∧
      (search_emit sh rng seed).arr.Perm (iota (max 1 seed).toNat) ∧
      ((search_emit sh rng seed).arr.length : Int) = max 1 seed ∧
      (max 1 seed ≤ 2147483637 →
        (1 ≤ (search_emit sh rng seed).target ∧ (search_emit sh rng seed).target ≤ max 1 seed ∧
            (search_emit sh rng seed).target ∈ (search_emit sh rng seed).arr) ∨
          (max 1 seed + 1 ≤ (search_emit sh rng seed).target ∧
            (search_emit sh rng seed).target ≤ max 1 seed + 10 ∧
            (search_emit sh rng seed).target ∉ (search_emit sh rng seed).arr)) := by
  have hperm := sh.perm (iota (max 1 seed).toNat) rng
  have hn : (1 : Int) ≤ max 1 seed := le_max_left _ _
  have hmem : ∀ t : Int, t ∈ (sh.run (iota (max 1 seed).toNat) rng).1 ↔
      1 ≤ t ∧ t ≤ max 1 seed := by
    intro t
    rw [hperm.mem_iff, mem_iota]
    constructor
    · rintro ⟨h1, h2⟩; exact ⟨h1, by omega⟩
    · rintro ⟨h1, h2⟩; exact ⟨h1, by omega⟩
  refine ⟨rfl, hperm, ?_, ?_⟩
  · simp only [search_emit, hperm.length_eq, iota_length]
    omega
  · intro hbound
    simp only [search_emit]
    generalize (sh.run (iota (max 1 seed).toNat) rng).2 = k
    by_cases hbranch : rng k % 5 < 4
    · left
      simp only [hbranch, if_true]
      have hlt : rng (k + 1) % (max 1 seed).toNat < (max 1 seed).toNat :=
        Nat.mod_lt _ (by omega)
      rw [toInt32_of_range _ (by omega) (by omega), hmem]
      omega
    · right
      simp only [hbranch, if_false]
      have hlt : rng (k + 1) % 10 < 10 := Nat.mod_lt _ (by decide)
      rw [toInt32_of_range _ (by omega) (by omega), hmem]
      omega

/-- On every test case `search_generator` prints, whatever the seed, the
shuffle and the draws, `search_solution` and `search_brute` print the same
value. -/
theorem search_agree_on_emitted (sh : Shuffle) (rng : Nat → Nat) (seed : Int) :
    search_solution (search_emit sh rng seed).arr (search_emit sh rng seed).target
      = search_brute (search_emit sh rng seed).arr (search_emit sh rng seed).target := by
  obtain ⟨_, hperm, _, _⟩ := search_emit_wellformed sh rng seed
  obtain ⟨r, hr, hcase⟩ := search_solution_spec (search_emit sh rng seed).arr
    (search_emit sh rng seed).target
  obtain ⟨r', hr', hcase'⟩ := search_brute_spec (search_emit sh rng seed).arr
    (search_emit sh rng seed).target
  rw [hr, hr', index_on_iota _ _ hperm _ r hcase,
    index_on_iota _ _ hperm _ r' (hcase'.imp id (fun h => ⟨h.1, h.2.1, h.2.2.1⟩))]

/-- The loop of `std::max_element` ends on an element of the range that is at
least every element of it. -/
theorem max_element_loop_spec (rest : List Int) :
    ∀ largest : Int,
      max_element_loop largest rest ∈ largest :: rest ∧
        ∀ x ∈ largest :: rest, x ≤ max_element_loop largest rest := by
  induction rest with
  | nil => intro largest; simp [max_element_loop]
  | cons y rest ih =>
    intro largest
    unfold max_element_loop
    by_cases h : largest < y
    · simp only [h, if_true]
      obtain ⟨hm, hle⟩ := ih y
      refine ⟨List.mem_cons_of_mem _ hm, ?_⟩
      intro x hx
      rcases List.mem_cons.1 hx with rfl | hx
      · have := hle y (List.mem_cons_self _ _); omega
      · exact hle x hx
    · simp only [h, if_false]
      obtain ⟨hm, hle⟩ := ih largest
      refine ⟨?_, ?_⟩
      · rcases List.mem_cons.1 hm with e | hm
        · rw [e]; exact List.mem_cons_self _ _
        · exact List.mem_cons_of_mem _ (List.mem_cons_of_mem _ hm)
      · intro x hx
        rcases List.mem_cons.1 hx with rfl | hx
        · exact hle _ (List.mem_cons_self _ _)
        · rcases List.mem_cons.1 hx with rfl | hx
          · have := hle largest (List.mem_cons_self _ _); omega
          · exact hle x (List.mem_cons_of_mem _ hx)

/-- The running maximum of `problem123_solution` is the start value or an
element read, and is at least the start value and every element read. -/
theorem foldl_max_spec (xs : List Int) :
    ∀ init : Int,
      (xs.foldl (fun max_val x => max max_val x) init = init ∨
          xs.foldl (fun max_val x => max max_val x) init ∈ xs) ∧
        init ≤ xs.foldl (fun max_val x => max max_val x) init ∧
        ∀ x ∈ xs, x ≤ xs.foldl (fun max_val x => max max_val x) init := by
  induction xs with
  | nil => intro init; simp
  | cons y xs ih =>
    intro init
    simp only [List.foldl_cons]
    obtain ⟨h1, h2, h3⟩ := ih (max init y)
    refine ⟨?_, le_trans (le_max_left _ _) h2, ?_⟩
    · rcases h1 with e | hm
      · rw [e]
        rcases max_choice init y with h | h
        · exact Or.inl h
        · exact Or.inr (by rw [h]; exact List.mem_cons_self _ _)
      · exact Or.inr (List.mem_cons_of_mem _ hm)
    · intro x hx
      rcases List.mem_cons.1 hx with rfl | hx
      · exact le_trans (le_max_right _ _) h2
      · exact h3 x hx

/-- When some element is at least -1000000, `problem123_solution` prints the
greatest element of the array. -/
theorem problem123_solution_of_bounded (xs : List Int) (h : ∃ x ∈ xs, -1000000 ≤ x) :
    problem123_solution xs ∈ xs ∧ ∀ x ∈ xs, x ≤ problem123_solution xs := by
  obtain ⟨x0, hx0, hb⟩ := h
  have hne : xs.length ≠ 0 := by
    intro h0
    rw [List.length_eq_zero.1 h0] at hx0
    simp at hx0
  obtain ⟨h1, h2, h3⟩ := foldl_max_spec xs (-1000000)
  simp only [problem123_solution, hne, if_false]
  refine ⟨?_, h3⟩
  rcases h1 with e | hm
  · have := h3 x0 hx0
    rw [e] at this ⊢
    have : x0 = -1000000 := le_antisymm this hb
    rw [← this]; exact hx0
  · exact hm

/-- C9: on the array `-2000000` (n = 1) `problem123_solution` prints
-1000000, the start value of its running maximum, and not the greatest
element -2000000; `sol_problem2` prints -2000000 there.  On n = 0 it prints 0. -/
theorem problem123_solution_below_start :
    problem123_solution [-2000000] = -1000000 ∧
      sol_problem2 [-2000000] = some (-2000000) ∧
      problem123_solution [] = 0 := by
  decide

/-- C10: for every non-empty array `sol_problem2` prints an element of the
array that is at least every element of it, and for n = 0 it prints 0. -/
theorem sol_problem2_correct (nums : List Int) :
    ∃ m, sol_problem2 nums = some m ∧
      (nums = [] → m = 0) ∧
      (nums ≠ [] → m ∈ nums ∧ ∀ x ∈ nums, x ≤ m) := by
  cases nums with
  | nil => exact ⟨0, rfl, fun _ => rfl, fun h => absurd rfl h⟩
  | cons a rest =>
    obtain ⟨hm, hle⟩ := max_element_loop_spec rest a
    exact ⟨max_element_loop a rest, by simp [sol_problem2, max_element],
      fun h => by simp at h, fun _ => ⟨hm, hle⟩⟩

theorem sol_problem2_correct_witness :
    ∃ m, sol_problem2 [3, 9, 2] = some m ∧ m ∈ [3, 9, 2] ∧ ∀ x ∈ [3, 9, 2], x ≤ m := by
  obtain ⟨m, h, _, h2⟩ := sol_problem2_correct [3, 9, 2]
  exact ⟨m, h, h2 (by decide)⟩

/-! ## The middle element -/

/-- C11: for every non-empty array `binsearch` prints the element at index
`(n - 1) / 2` of the array sorted ascending; for odd `n` that index has as many
elements before it as after it (the median), for even `n` it is `n / 2 - 1` and
its element is not greater than the one at index `n / 2`; for `n = 0` the
program prints `Empty array`. -/
theorem binsearch_middle (arr : List Int) :
    (arr ≠ [] →
      ∃ v, binsearch arr = some (BinsearchOutput.value v) ∧
        (std_sort arr)[(arr.length - 1) / 2]? = some v ∧
        (arr.length % 2 = 1 →
          (arr.length - 1) / 2 = arr.length / 2 ∧
            (arr.length - 1) / 2 + (arr.length - 1) / 2 + 1 = arr.length) ∧
        (arr.length % 2 = 0 →
          (arr.length - 1) / 2 = arr.length / 2 - 1 ∧
            ∃ u, (std_sort arr)[arr.length / 2]? = some u ∧ v ≤ u)) ∧
      (arr = [] → binsearch arr = some BinsearchOutput.emptyArray) := by
  refine ⟨?_, fun h => by subst h; rfl⟩
  intro hne
  have hpos : 0 < arr.length := List.length_pos.2 hne
  have hlen := std_sort_length arr
  have hmid : (0 + ((arr.length : Int) - 1 - 0).tdiv 2).toNat = (arr.length - 1) / 2 := by
    rw [Int.tdiv_eq_ediv (by omega) (by decide)]
    omega
  have hnonneg : ¬ (0 + ((arr.length : Int) - 1 - 0).tdiv 2 < 0) := by
    rw [Int.tdiv_eq_ediv (by omega) (by decide)]
    omega
  have hidx : (arr.length - 1) / 2 < (std_sort arr).length := by omega
  refine ⟨(std_sort arr)[(arr.length - 1) / 2], ?_, List.getElem?_eq_getElem hidx, ?_, ?_⟩
  · simp only [binsearch, show ¬ ((arr.length : Int) = 0) by omega, if_false, hnonneg, hmid,
      List.getElem?_eq_getElem hidx, Option.map_some']
  · intro hodd
    omega
  · intro heven
    have hidx2 : arr.length / 2 < (std_sort arr).length := by omega
    refine ⟨by omega, (std_sort arr)[arr.length / 2], List.getElem?_eq_getElem hidx2, ?_⟩
    exact sorted_getElem?_le (std_sort_sorted arr) (List.getElem?_eq_getElem hidx)
      (List.getElem?_eq_getElem hidx2) (by omega)

theorem binsearch_middle_witness :
    ∃ v, binsearch [7, 1, 4, 9] = some (BinsearchOutput.value v) ∧
      (std_sort [7, 1, 4, 9])[(([7, 1, 4, 9] : List Int).length - 1) / 2]? = some v := by
  obtain ⟨v, h1, h2, _⟩ := (binsearch_middle [7, 1, 4, 9]).1 (by decide)
  exact ⟨v, h1, h2⟩

/-! ## The sum of an array -/

/-- While the running sums fit an `int`, the loop of `sol_problem1` adds
exactly. -/
theorem foldl_sum_exact (xs : List Int) :
    ∀ acc : Int,
      (∀ k, -2147483648 ≤ acc + (xs.take k).sum ∧ acc + (xs.take k).sum ≤ 2147483647) →
      xs.foldl (fun sum x => toInt32 (sum + x)) acc = acc + xs.sum := by
  induction xs with
  | nil => intro acc _; simp
  | cons x xs ih =>
    intro acc h
    have h1 := h 1
    simp only [List.take_succ_cons, List.take_zero, List.sum_cons, List.sum_nil,
      add_zero] at h1
    simp only [List.foldl_cons, List.sum_cons]
    rw [toInt32_of_range _ h1.1 h1.2, ih (acc + x)]
    · ring
    · intro k
      have hk := h (k + 1)
      simp only [List.take_succ_cons, List.sum_cons] at hk
      constructor <;> linarith [hk.1, hk.2]

/-- C12: for every array whose running sums all stay within the signed 32-bit
range, `sol_problem1` prints the exact integer sum of the array; for the empty
array it prints 0. -/
theorem sol_problem1_sum (nums : List Int)
    (h : ∀ k, -2147483648 ≤ (nums.take k).sum ∧ (nums.take k).sum ≤ 2147483647) :
    sol_problem1 nums = nums.sum ∧ sol_problem1 [] = 0 := by
  refine ⟨?_, rfl⟩
  have := foldl_sum_exact nums 0 (by simpa using h)
  simpa [sol_problem1] using this

theorem sol_problem1_sum_witness :
    sol_problem1 [5, -7, 2147483647] = ([5, -7, 2147483647] : List Int).sum ∧
      sol_problem1 [] = 0 :=
  sol_problem1_sum [5, -7, 2147483647] (by
    intro k
    rcases k with _ | _ | _ | _ | k <;> simp)

/-! ## The Comparator -/

/-- The token sequences have no differing index exactly when they are equal. -/
theorem firstDiff_eq_none_iff (xs : List String) :
    ∀ (ys : List String) (i : Nat), firstDiff i xs ys = none ↔ xs = ys := by
  induction xs with
  | nil =>
    intro ys i
    cases ys <;> simp [firstDiff]
  | cons x xs ih =>
    intro ys i
    cases ys with
    | nil => simp [firstDiff]
    | cons y ys =>
      by_cases hxy : x = y
      · simp [firstDiff, hxy, ih]
      · simp [firstDiff, hxy]

/-- C13: the Comparator compares whitespace-separated token sequences:
`"3 1 2"` against itself and `"3 1 2 "` against `" 3 1  2"` are Equivalent,
`"3 1 2"` against `"3 2 1"` is Different in exact-sequence mode and Equivalent
in unordered-multiset mode; in exact-sequence mode two blobs are Equivalent
exactly when their token lists are equal. -/
theorem compare_tokens :
    compare CompareMode.exactSequence "3 1 2" "3 1 2" = CompareResult.Equivalent ∧
      compare CompareMode.exactSequence "3 1 2 " " 3 1  2" = CompareResult.Equivalent ∧
      compare CompareMode.exactSequence "3 1 2" "3 2 1"
        = CompareResult.Different { index := 1, expected := some "1", actual := some "2" } ∧
      compare CompareMode.unorderedMultiset "3 1 2" "3 2 1" = CompareResult.Equivalent ∧
      (∀ expectedBlob actualBlob : String,
        compare CompareMode.exactSequence expectedBlob actualBlob = CompareResult.Equivalent
          ↔ tokenize expectedBlob = tokenize actualBlob) := by
  refine ⟨by decide, by decide, by decide, by decide, ?_⟩
  intro e a
  rw [← firstDiff_eq_none_iff (tokenize e) (tokenize a) 0]
  simp only [compare]
  cases firstDiff 0 (tokenize e) (tokenize a) <;> simp

/-! ## Duplicates -/

/-- A value that occurs at most once sits at one index only. -/
theorem index_unique_of_count_le_one (t : Int) (l : List Int) :
    ∀ (i j : Nat), l.count t ≤ 1 → l[i]? = some t → l[j]? = some t → i = j := by
  induction l with
  | nil => intro i j _ hi; simp at hi
  | cons a l ih =>
    intro i j hc hi hj
    rw [List.count_cons] at hc
    cases i with
    | zero =>
      cases j with
      | zero => rfl
      | succ j =>
        simp only [List.getElem?_cons_zero, Option.some.injEq] at hi
        simp only [List.getElem?_cons_succ] at hj
        have hmem : t ∈ l := List.mem_iff_getElem?.2 ⟨j, hj⟩
        have hpos : 0 < l.count t := List.count_pos_iff.2 hmem
        simp only [hi, beq_self_eq_true, if_true] at hc
        omega
    | succ i =>
      cases j with
      | zero =>
        simp only [List.getElem?_cons_zero, Option.some.injEq] at hj
        simp only [List.getElem?_cons_succ] at hi
        have hmem : t ∈ l := List.mem_iff_getElem?.2 ⟨i, hi⟩
        have hpos : 0 < l.count t := List.count_pos_iff.2 hmem
        simp only [hj, beq_self_eq_true, if_true] at hc
        omega
      | succ j =>
        simp only [List.getElem?_cons_succ] at hi hj
        have := ih i j (by omega) hi hj
        omega

/-- C15, as it stands, fails: on the array `5 5 5` and the target 5
`search_brute` prints the first index 0 and `search_solution` the middle
index 1. -/
theorem search_differ_on_duplicates :
    search_brute [5, 5, 5] 5 = some 0 ∧ search_solution [5, 5, 5] 5 = some 1 ∧
      search_brute [5, 5, 5] 5 ≠ search_solution [5, 5, 5] 5 := by
  decide

/-- C15, amended: for every array in which the target occurs at most once,
and so for every array without duplicates, `search_brute` and
`search_solution` print the same index. -/
theorem search_agree_without_duplicates (arr : List Int) (target : Int)
    (h : arr.count target ≤ 1) :
    search_brute arr target = search_solution arr target := by
  obtain ⟨r, hr, hcase⟩ := search_solution_spec arr target
  obtain ⟨r', hr', hcase'⟩ := search_brute_spec arr target
  rw [hr, hr']
  have hc : (std_sort arr).count target ≤ 1 := by
    rw [(std_sort_perm arr).count_eq]; exact h
  rcases hcase with ⟨h1, h2⟩ | ⟨h1, _, h3⟩
  · rcases hcase' with ⟨h1', _⟩ | ⟨_, _, h3', _⟩
    · rw [h1, h1']
    · exact absurd ((mem_std_sort arr target).1 (List.mem_iff_getElem?.2 ⟨_, h3'⟩)) h2
  · rcases hcase' with ⟨_, h2'⟩ | ⟨h1', _, h3', _⟩
    · exact absurd ((mem_std_sort arr target).1 (List.mem_iff_getElem?.2 ⟨_, h3⟩)) h2'
    · have := index_unique_of_count_le_one target (std_sort arr) _ _ hc h3 h3'
      congr 1
      omega

theorem search_agree_without_duplicates_witness :
    List.count (2 : Int) [3, 1, 2] ≤ 1 ∧ search_brute [3, 1, 2] 2 = search_solution [3, 1, 2] 2 :=
  ⟨by decide, search_agree_without_duplicates [3, 1, 2] 2 (by decide)⟩

/-! ## The clamp of the seed -/

/-- C16: `algo1_generator` and `search_generator` clamp the seed to at least 1:
for every seed `s <= 0` the test case is the one of the seed 1, and for every
`int` seed `s >= 1` the engine is seeded with `s` itself. -/
theorem seed_clamped (w : Nat) (sh : Shuffle) (s : Int) :
    (s ≤ 0 →
      algo1_generator w s = algo1_generator w 1 ∧
        search_generator sh s = search_generator sh 1) ∧
      (1 ≤ s → s ≤ 2147483647 →
        seedWord (max 1 s) = s.toNat ∧
          algo1_generator w s = algo1_emit w (mt19937 s.toNat) ∧
          search_generator sh s = search_emit sh (mt19937 s.toNat) s) := by
  constructor
  · intro hs
    have hmax : max 1 s = 1 := max_eq_left (by omega)
    have hmax1 : max (1 : Int) 1 = 1 := max_self 1
    simp only [algo1_generator, search_generator, search_emit, hmax, hmax1, and_self]
  · intro h1 h2
    have hmax : max 1 s = s := max_eq_right h1
    have hw : seedWord s = s.toNat := by
      unfold seedWord
      congr 1
      omega
    simp only [algo1_generator, search_generator, hmax, hw, and_self]

theorem seed_clamped_witness :
    (algo1_generator 64 0 = algo1_generator 64 1 ∧
        search_generator listShuffle 0 = search_generator listShuffle 1) ∧
      (seedWord (max 1 5) = (5 : Int).toNat ∧
        algo1_generator 64 5 = algo1_emit 64 (mt19937 (5 : Int).toNat) ∧
        search_generator listShuffle 5 = search_emit listShuffle (mt19937 (5 : Int).toNat) 5) :=
  ⟨(seed_clamped 64 listShuffle 0).1 (by decide),
    (seed_clamped 64 listShuffle 5).2 (by decide) (by decide)⟩

end CppTest
